import Mathlib

/-!
Verification of the dynamic-programming MDP solver in `deeprl_p1/rl.py`.

The Python module works on a transition model (`env`) exposing `nS`, `nA`
and a table `P` mapping a (state, action) pair to a list of outcomes
`(prob, nextstate, reward, is_terminal)`.  Floating-point values are
modelled as rationals (`ℚ`); numpy arrays indexed by states are modelled
as total functions `ℕ → ℚ` (resp. `ℕ → ℕ` for policies), updated
pointwise exactly where the Python code writes an array cell.  The
unbounded `while` loop of `evaluate_policy` is modelled with an explicit
fuel argument returning `Option`: `none` means the loop has not finished
within `fuel` sweeps.
-/

/-- One entry of `env.P[s][a]`: the tuple `(prob, nextstate, reward, is_terminal)`. -/
structure Outcome where
  prob : ℚ
  nextState : ℕ
  reward : ℚ
  is_terminal : Bool

/-- The transition model consumed by the solver: `nS`, `nA` and `P`. -/
structure MDP where
  nS : ℕ
  nA : ℕ
  P : ℕ → ℕ → List Outcome

/-- Pointwise array write: models `arr[s] = x` on a numpy array viewed as a map. -/
def updAt {α : Type} (f : ℕ → α) (s : ℕ) (x : α) : ℕ → α :=
  fun t => if t = s then x else f t

/-- The inner accumulation of `evaluate_policy` (rl.py lines 54-67):
`expected_value += prob * (reward + gamma * 0)` on terminal outcomes,
`expected_value += prob * (reward + gamma * v[nextstate])` otherwise. -/
def expected_value_eval (env : MDP) (gamma : ℚ) (v : ℕ → ℚ) (s a : ℕ) : ℚ :=
  (env.P s a).foldl
    (fun acc o =>
      if o.is_terminal then acc + o.prob * (o.reward + gamma * 0)
      else acc + o.prob * (o.reward + gamma * v o.nextState)) 0

/-- The inner accumulation of `value_function_to_policy` (rl.py lines 104-110),
textually the same computation repeated at its second call site. -/
def expected_value_vtp (env : MDP) (gamma : ℚ) (v : ℕ → ℚ) (s a : ℕ) : ℚ :=
  (env.P s a).foldl
    (fun acc o =>
      if o.is_terminal then acc + o.prob * (o.reward + gamma * 0)
      else acc + o.prob * (o.reward + gamma * v o.nextState)) 0

/-- The inner accumulation of `value_iteration` (rl.py lines 248-256),
textually the same computation repeated at its third call site. -/
def expected_value_vi (env : MDP) (gamma : ℚ) (v : ℕ → ℚ) (s a : ℕ) : ℚ :=
  (env.P s a).foldl
    (fun acc o =>
      if o.is_terminal then acc + o.prob * (o.reward + gamma * 0)
      else acc + o.prob * (o.reward + gamma * v o.nextState)) 0

/-- The expected-return formula in the words of the spec (§4.1/§9): a terminal
outcome contributes only `prob * reward`, a non-terminal one contributes
`prob * (reward + γ·V(next))`. -/
def expectedReturnSpec (env : MDP) (gamma : ℚ) (v : ℕ → ℚ) (s a : ℕ) : ℚ :=
  ((env.P s a).map
    (fun o =>
      if o.is_terminal then o.prob * o.reward
      else o.prob * (o.reward + gamma * v o.nextState))).sum

/-- One state update of an `evaluate_policy` sweep (rl.py lines 50-72): the
carried pair is the value array and the running `delta`; the action is
`a = policy[s]`, the written value is the expected value, and `delta`
becomes `max(delta, abs(v[s] - old_v))`. -/
def evalSweepStep (env : MDP) (gamma : ℚ) (policy : ℕ → ℕ)
    (vd : (ℕ → ℚ) × ℚ) (s : ℕ) : (ℕ → ℚ) × ℚ :=
  (updAt vd.1 s (expected_value_eval env gamma vd.1 s (policy s)),
    max vd.2 |expected_value_eval env gamma vd.1 s (policy s) - vd.1 s|)

/-- One full sweep of `evaluate_policy` over `range(env.nS)`, with `delta`
reset to `0` at the start of the sweep. -/
def evalSweep (env : MDP) (gamma : ℚ) (policy : ℕ → ℕ) (v : ℕ → ℚ) :
    (ℕ → ℚ) × ℚ :=
  (List.range env.nS).foldl (evalSweepStep env gamma policy) (v, 0)

/-- The `while not eval_converge` loop of `evaluate_policy`, with explicit
fuel.  Each pass increments `iterations`, runs one sweep and stops as soon
as `delta < tol`.  Note that the loop condition of the source never
consults `max_iterations`. -/
def evaluatePolicyLoop (env : MDP) (gamma : ℚ) (policy : ℕ → ℕ) (tol : ℚ) :
    ℕ → (ℕ → ℚ) → ℕ → Option ((ℕ → ℚ) × ℕ)
  | 0, _, _ => none
  | fuel + 1, v, iterations =>
    let vd := evalSweep env gamma policy v
    if vd.2 < tol then some (vd.1, iterations + 1)
    else evaluatePolicyLoop env gamma policy tol fuel vd.1 (iterations + 1)

/-- Function `evaluate_policy` (rl.py lines 8-76).  The `max_iterations` argument is
accepted, exactly as in the source, but the loop never reads it. -/
def evaluate_policy (env : MDP) (gamma : ℚ) (policy : ℕ → ℕ)
    (value_func : ℕ → ℚ) (max_iterations : ℕ) (tol : ℚ) (fuel : ℕ) :
    Option ((ℕ → ℚ) × ℕ) :=
  evaluatePolicyLoop env gamma policy tol fuel value_func 0

/-- The action loop body of `value_function_to_policy` (rl.py lines 103-114):
the carried state is `(max_value, policy)`; the policy cell `s` is written
when `max_value is None or max_value < expected_value`. -/
def vtpInner (env : MDP) (gamma : ℚ) (value_function : ℕ → ℚ) (s : ℕ)
    (st : Option ℚ × (ℕ → ℕ)) (a : ℕ) : Option ℚ × (ℕ → ℕ) :=
  match st.1 with
  | none =>
    (some (expected_value_vtp env gamma value_function s a), updAt st.2 s a)
  | some max_value =>
    if max_value < expected_value_vtp env gamma value_function s a then
      (some (expected_value_vtp env gamma value_function s a), updAt st.2 s a)
    else st

/-- The per-state step of `value_function_to_policy`: run the action loop
with `max_value` reset to `None`. -/
def vtpOuterStep (env : MDP) (gamma : ℚ) (value_function : ℕ → ℚ)
    (policy : ℕ → ℕ) (s : ℕ) : ℕ → ℕ :=
  ((List.range env.nA).foldl (vtpInner env gamma value_function s)
    (none, policy)).2

/-- Function `value_function_to_policy` (rl.py lines 79-116): start from
`np.zeros(nS, dtype=int)` and fill each state's greedy action. -/
def value_function_to_policy (env : MDP) (gamma : ℚ)
    (value_function : ℕ → ℚ) : ℕ → ℕ :=
  (List.range env.nS).foldl (vtpOuterStep env gamma value_function)
    (fun _ => 0)

/-- Function `improve_policy` (rl.py lines 120-155): extract the greedy policy and
compute `policy_stable`, which starts `True` and is set to `False` at every
state where the old and new policies disagree. -/
def improve_policy (env : MDP) (gamma : ℚ) (value_func : ℕ → ℚ)
    (policy : ℕ → ℕ) : Bool × (ℕ → ℕ) :=
  let new_policy := value_function_to_policy env gamma value_func
  ((List.range env.nS).foldl
      (fun policy_stable s =>
        if policy s ≠ new_policy s then false else policy_stable) true,
    new_policy)

/-- The `for i in range(max_iterations)` loop of `policy_iteration`
(rl.py lines 197-206), recursing on the number of remaining rounds.  The
carried tuple is `(policy, value_func, improve_iteration, evalue_iteration)`.
`none` propagates a non-terminating inner evaluation (fuel exhausted). -/
def policy_iteration_go (env : MDP) (gamma : ℚ) (max_iterations : ℕ)
    (tol : ℚ) (fuel : ℕ) :
    ℕ → (ℕ → ℕ) × (ℕ → ℚ) × ℕ × ℕ → Option ((ℕ → ℕ) × (ℕ → ℚ) × ℕ × ℕ)
  | 0, st => some st
  | n + 1, (policy, value_func, improve_iteration, evalue_iteration) =>
    match evaluate_policy env gamma policy value_func max_iterations tol fuel with
    | none => none
    | some (value_func', e_iter) =>
      let r := improve_policy env gamma value_func' policy
      if r.1 then
        some (r.2, value_func', improve_iteration + 1, evalue_iteration + e_iter)
      else
        policy_iteration_go env gamma max_iterations tol fuel n
          (r.2, value_func', improve_iteration + 1, evalue_iteration + e_iter)

/-- Function `policy_iteration` (rl.py lines 158-207): start from the all-zero policy
and all-zero value function. -/
def policy_iteration (env : MDP) (gamma : ℚ) (max_iterations : ℕ) (tol : ℚ)
    (fuel : ℕ) : Option ((ℕ → ℕ) × (ℕ → ℚ) × ℕ × ℕ) :=
  policy_iteration_go env gamma max_iterations tol fuel max_iterations
    ((fun _ => 0), (fun _ => 0), 0, 0)

/-- The `max_value` accumulation of `value_iteration` (rl.py lines 246-257):
`max_value = expectation if max_value is None else max(max_value, expectation)`.
`none` after the loop means `env.nA = 0`. -/
def viBest (env : MDP) (gamma : ℚ) (v : ℕ → ℚ) (s : ℕ) : Option ℚ :=
  (List.range env.nA).foldl
    (fun max_value a =>
      match max_value with
      | none => some (expected_value_vi env gamma v s a)
      | some m => some (max m (expected_value_vi env gamma v s a))) none

/-- One state update of a `value_iteration` sweep (rl.py lines 244-261).
When `env.nA = 0` the source assigns `None` into a float array, which
raises; this is modelled by `none`. -/
def viSweepStep (env : MDP) (gamma : ℚ) (st : Option ((ℕ → ℚ) × ℚ))
    (s : ℕ) : Option ((ℕ → ℚ) × ℚ) :=
  match st with
  | none => none
  | some (V, delta) =>
    match viBest env gamma V s with
    | none => none
    | some max_value =>
      some (updAt V s max_value, max delta |V s - max_value|)

/-- One full sweep of `value_iteration` over `range(env.nS)`. -/
def viSweep (env : MDP) (gamma : ℚ) (V : ℕ → ℚ) : Option ((ℕ → ℚ) × ℚ) :=
  (List.range env.nS).foldl (viSweepStep env gamma) (some (V, 0))

/-- The `for i in range(max_iterations)` loop of `value_iteration`: each pass
runs a sweep, increments `iteration_cnt` and breaks when `delta < tol`. -/
def viLoop (env : MDP) (gamma : ℚ) (tol : ℚ) :
    ℕ → (ℕ → ℚ) → ℕ → Option ((ℕ → ℚ) × ℕ)
  | 0, V, iteration_cnt => some (V, iteration_cnt)
  | n + 1, V, iteration_cnt =>
    match viSweep env gamma V with
    | none => none
    | some (V', delta) =>
      if delta < tol then some (V', iteration_cnt + 1)
      else viLoop env gamma tol n V' (iteration_cnt + 1)

/-- Function `value_iteration` (rl.py lines 210-269): zero-initialized value array,
bounded sweep loop, then the manual override `V[env.nS-1] = 0`.  On an
empty state space the override `V[-1]` raises IndexError in numpy; this is
modelled by `none`. -/
def value_iteration (env : MDP) (gamma : ℚ) (max_iterations : ℕ) (tol : ℚ) :
    Option ((ℕ → ℚ) × ℕ) :=
  match viLoop env gamma tol max_iterations (fun _ => 0) 0 with
  | none => none
  | some (V, iteration_cnt) =>
    if env.nS = 0 then none
    else some (updAt V (env.nS - 1) 0, iteration_cnt)

/-- One round of the spec's policy-iteration state machine (§4.4): evaluate
the current policy, then improve it; reports the stability flag, the new
`(policy, value)` pair and the evaluation sweep count. -/
def piRound (env : MDP) (gamma : ℚ) (max_iterations : ℕ) (tol : ℚ)
    (fuel : ℕ) (st : (ℕ → ℕ) × (ℕ → ℚ)) :
    Option (Bool × ((ℕ → ℕ) × (ℕ → ℚ)) × ℕ) :=
  match evaluate_policy env gamma st.1 st.2 max_iterations tol fuel with
  | none => none
  | some (v', e_iter) =>
    some ((improve_policy env gamma v' st.1).1,
      ((improve_policy env gamma v' st.1).2, v'), e_iter)

/-- The spec's state machine after `k` rounds, starting from the all-zero
policy and value function, together with the accumulated evaluation sweep
count. -/
def piTrace (env : MDP) (gamma : ℚ) (max_iterations : ℕ) (tol : ℚ)
    (fuel : ℕ) : ℕ → Option (((ℕ → ℕ) × (ℕ → ℚ)) × ℕ)
  | 0 => some (((fun _ => 0), fun _ => 0), 0)
  | k + 1 =>
    match piTrace env gamma max_iterations tol fuel k with
    | none => none
    | some (st, acc) =>
      match piRound env gamma max_iterations tol fuel st with
      | none => none
      | some (_, st', e_iter) => some (st', acc + e_iter)

/-- The stability flag reported by round `k` (0-indexed) of the state
machine. -/
def piStableAt (env : MDP) (gamma : ℚ) (max_iterations : ℕ) (tol : ℚ)
    (fuel : ℕ) (k : ℕ) : Option Bool :=
  match piTrace env gamma max_iterations tol fuel k with
  | none => none
  | some (st, _) => (piRound env gamma max_iterations tol fuel st).map (·.1)

/-- The all-zero policy used as a concrete test input. -/
def zeroPolicy : ℕ → ℕ := fun _ => 0

/-- The all-zero value function used as a concrete test input. -/
def zeroValue : ℕ → ℚ := fun _ => 0

/-- Scenario B of the spec: a single state with two terminal actions of
rewards 1 and 2. -/
def modelB : MDP where
  nS := 1
  nA := 2
  P := fun s a =>
    match s, a with
    | 0, 0 => [⟨1, 0, 1, true⟩]
    | 0, 1 => [⟨1, 0, 2, true⟩]
    | _, _ => []

/-- Scenario A of the spec: state 0 moves to state 1 with reward 1
(non-terminal); state 1 has a terminal self-loop with reward 0. -/
def modelA : MDP where
  nS := 2
  nA := 1
  P := fun s a =>
    match s, a with
    | 0, 0 => [⟨1, 1, 1, false⟩]
    | 1, 0 => [⟨1, 1, 0, true⟩]
    | _, _ => []

/-- A model whose outcome probabilities sum to 2 at state 0: state 0 fans
out (probability 1 each) to states 1 and 2, both reached non-terminally
with reward 0; states 1 and 2 have terminal outcomes of reward mkRat 3 5. -/
def modelFan : MDP where
  nS := 3
  nA := 1
  P := fun s a =>
    match s, a with
    | 0, 0 => [⟨1, 1, 0, false⟩, ⟨1, 2, 0, false⟩]
    | 1, 0 => [⟨1, 0, mkRat 3 5, true⟩]
    | 2, 0 => [⟨1, 0, mkRat 3 5, true⟩]
    | _, _ => []

/-! ### Helper lemmas about folds over `List.range` -/

/-- Peeling the last index off a fold over `List.range (n+1)`. -/
theorem rangeFold_succ {σ : Type} (g : σ → ℕ → σ) (i : σ) (n : ℕ) :
    (List.range (n + 1)).foldl g i = g ((List.range n).foldl g i) n := by
  rw [List.range_succ, List.foldl_append, List.foldl_cons, List.foldl_nil]

/-- The state of an `evaluate_policy` sweep after processing states
`0, …, n-1`. -/
def evalSweepFold (env : MDP) (gamma : ℚ) (policy : ℕ → ℕ) (v0 : ℕ → ℚ)
    (n : ℕ) : (ℕ → ℚ) × ℚ :=
  (List.range n).foldl (evalSweepStep env gamma policy) (v0, 0)

theorem evalSweep_eq_fold (env : MDP) (gamma : ℚ) (policy : ℕ → ℕ)
    (v0 : ℕ → ℚ) :
    evalSweep env gamma policy v0 = evalSweepFold env gamma policy v0 env.nS :=
  rfl

/-- Combined loop invariant for the `evaluate_policy` sweep: states at
index `≥ n` are untouched, every processed state holds the expected value
computed from the mid-sweep array (already-updated below `s`, original at
`s` and above), every cell has moved by at most the running `delta`, and
`delta` is nonnegative. -/
theorem evalSweepFold_invariant (env : MDP) (gamma : ℚ) (policy : ℕ → ℕ)
    (v0 : ℕ → ℚ) (n : ℕ) :
    (∀ t, n ≤ t → (evalSweepFold env gamma policy v0 n).1 t = v0 t) ∧
    (∀ s, s < n →
      (evalSweepFold env gamma policy v0 n).1 s =
        expected_value_eval env gamma
          (fun t => if t < s then (evalSweepFold env gamma policy v0 n).1 t
            else v0 t) s (policy s)) ∧
    (∀ t, |(evalSweepFold env gamma policy v0 n).1 t - v0 t| ≤
      (evalSweepFold env gamma policy v0 n).2) ∧
    0 ≤ (evalSweepFold env gamma policy v0 n).2 := by
  induction n with
  | zero =>
    refine ⟨fun t _ => rfl, fun s hs => absurd hs (Nat.not_lt_zero s), ?_, le_refl 0⟩
    intro t
    simp [evalSweepFold]
  | succ n ih =>
    obtain ⟨ha, hb, hc, hd⟩ := ih
    have hsucc : evalSweepFold env gamma policy v0 (n + 1) =
        evalSweepStep env gamma policy (evalSweepFold env gamma policy v0 n) n :=
      rangeFold_succ _ _ _
    set V := (evalSweepFold env gamma policy v0 n).1 with hV
    set D := (evalSweepFold env gamma policy v0 n).2 with hD
    have hstep1 : (evalSweepFold env gamma policy v0 (n + 1)).1 =
        updAt V n (expected_value_eval env gamma V n (policy n)) := by
      rw [hsucc]; rfl
    have hstep2 : (evalSweepFold env gamma policy v0 (n + 1)).2 =
        max D |expected_value_eval env gamma V n (policy n) - V n| := by
      rw [hsucc]; rfl
    have hVn : V n = v0 n := ha n (le_refl n)
    refine ⟨?_, ?_, ?_, ?_⟩
    · intro t ht
      rw [hstep1, updAt]
      have htn : t ≠ n := by omega
      simp only [htn, if_false]
      exact ha t (by omega)
    · intro s hs
      rcases Nat.lt_succ_iff_lt_or_eq.mp hs with hlt | heq
      · -- a previously processed state: its cell and the hybrid array
        -- it was computed from are unchanged by the update at `n`
        have hcell : (evalSweepFold env gamma policy v0 (n + 1)).1 s = V s := by
          rw [hstep1, updAt]
          have : s ≠ n := by omega
          simp [this]
        rw [hcell, hb s hlt]
        congr 1
        funext t
        by_cases hts : t < s
        · have htn : t ≠ n := by omega
          simp only [hts, if_true]
          rw [hstep1, updAt]
          simp [htn]
        · simp [hts]
      · -- the state updated at this step: the mid-sweep array coincides
        -- with the pre-step array `V`
        have hcell : (evalSweepFold env gamma policy v0 (n + 1)).1 s =
            expected_value_eval env gamma V s (policy s) := by
          rw [hstep1, updAt, heq]; simp
        rw [hcell]
        congr 1
        funext t
        by_cases ht : t < s
        · simp only [ht, if_true]
          rw [hstep1, updAt]
          have htn : t ≠ n := by omega
          simp [htn]
        · simp only [ht, if_false]
          exact ha t (by omega)
    · intro t
      by_cases htn : t = n
      · subst htn
        rw [hstep1, hstep2, updAt]
        simp only [if_pos rfl]
        rw [← hVn]
        exact le_max_right _ _
      · rw [hstep1, hstep2, updAt]
        simp only [htn, if_false]
        exact le_trans (hc t) (le_max_left _ _)
    · rw [hstep2]
      exact le_trans hd (le_max_left _ _)

/-- The state of a `value_iteration` sweep after processing states
`0, …, n-1`. -/
def viSweepFold (env : MDP) (gamma : ℚ) (v0 : ℕ → ℚ) (n : ℕ) :
    Option ((ℕ → ℚ) × ℚ) :=
  (List.range n).foldl (viSweepStep env gamma) (some (v0, 0))

theorem viSweep_eq_fold (env : MDP) (gamma : ℚ) (v0 : ℕ → ℚ) :
    viSweep env gamma v0 = viSweepFold env gamma v0 env.nS :=
  rfl

/-- Combined loop invariant for the `value_iteration` sweep: when the fold
has not failed, states at index `≥ n` are untouched and every processed
state holds the greatest action value computed from the mid-sweep array. -/
theorem viSweepFold_invariant (env : MDP) (gamma : ℚ) (v0 : ℕ → ℚ) (n : ℕ) :
    viSweepFold env gamma v0 n = none ∨
    ∃ V delta, viSweepFold env gamma v0 n = some (V, delta) ∧
      (∀ t, n ≤ t → V t = v0 t) ∧
      (∀ s, s < n →
        viBest env gamma (fun t => if t < s then V t else v0 t) s =
          some (V s)) := by
  induction n with
  | zero =>
    refine Or.inr ⟨v0, 0, rfl, fun t _ => rfl, fun s hs => absurd hs (Nat.not_lt_zero s)⟩
  | succ n ih =>
    have hsucc : viSweepFold env gamma v0 (n + 1) =
        viSweepStep env gamma (viSweepFold env gamma v0 n) n :=
      rangeFold_succ _ _ _
    rcases ih with hnone | ⟨V, delta, hsome, ha, hb⟩
    · left
      rw [hsucc, hnone]
      rfl
    · rw [hsucc, hsome]
      rcases hbest : viBest env gamma V n with _ | m
      · left
        simp [viSweepStep, hbest]
      · right
        refine ⟨updAt V n m, max delta |V n - m|, by simp [viSweepStep, hbest], ?_, ?_⟩
        · intro t ht
          rw [updAt]
          have htn : t ≠ n := by omega
          simp only [htn, if_false]
          exact ha t (by omega)
        · intro s hs
          rcases Nat.lt_succ_iff_lt_or_eq.mp hs with hlt | heq
          · have hcell : updAt V n m s = V s := by
              rw [updAt]
              have : s ≠ n := by omega
              simp [this]
            rw [hcell]
            have hfun : (fun t => if t < s then updAt V n m t else v0 t) =
                (fun t => if t < s then V t else v0 t) := by
              funext t
              by_cases hts : t < s
              · have htn : t ≠ n := by omega
                simp [hts, updAt, htn]
              · simp [hts]
            rw [hfun]
            exact hb s hlt
          · have hcell : updAt V n m s = m := by
              rw [updAt, heq]; simp
            rw [hcell]
            have hfun : (fun t => if t < s then updAt V n m t else v0 t) = V := by
              funext t
              by_cases hts : t < s
              · have htn : t ≠ n := by omega
                simp [hts, updAt, htn]
              · simp only [hts, if_false]
                exact (ha t (by omega)).symm
            rw [hfun, heq]
            exact hbest

/-- Unfolding one pass of the `evaluate_policy` loop. -/
theorem evaluatePolicyLoop_succ (env : MDP) (gamma : ℚ) (policy : ℕ → ℕ)
    (tol : ℚ) (fuel : ℕ) (v : ℕ → ℚ) (iterations : ℕ) :
    evaluatePolicyLoop env gamma policy tol (fuel + 1) v iterations =
      if (evalSweep env gamma policy v).2 < tol then
        some ((evalSweep env gamma policy v).1, iterations + 1)
      else
        evaluatePolicyLoop env gamma policy tol fuel
          (evalSweep env gamma policy v).1 (iterations + 1) :=
  rfl

/-- Whatever `evaluate_policy` returns is the array produced by its final
sweep, and that sweep's `delta` was below the tolerance. -/
theorem evaluatePolicyLoop_last_sweep (env : MDP) (gamma : ℚ)
    (policy : ℕ → ℕ) (tol : ℚ) :
    ∀ fuel v iterations V iters,
      evaluatePolicyLoop env gamma policy tol fuel v iterations =
        some (V, iters) →
      ∃ u, (evalSweep env gamma policy u).1 = V ∧
        (evalSweep env gamma policy u).2 < tol := by
  intro fuel
  induction fuel with
  | zero => intro v iterations V iters h; exact absurd h (by simp [evaluatePolicyLoop])
  | succ fuel ih =>
    intro v iterations V iters h
    rw [evaluatePolicyLoop_succ] at h
    by_cases hlt : (evalSweep env gamma policy v).2 < tol
    · rw [if_pos hlt] at h
      refine ⟨v, ?_, hlt⟩
      simpa using congrArg (fun o => o.map Prod.fst) h
    · rw [if_neg hlt] at h
      exact ih _ _ _ _ h

/-! ### Sum lemmas for the expected-return computation -/

/-- A fold accumulating `acc + (terminal ? f : g)` is the sum of the mapped
list. -/
theorem foldl_branch_add_eq_sum (f g : Outcome → ℚ) :
    ∀ (l : List Outcome) (c : ℚ),
      l.foldl (fun acc o => if o.is_terminal then acc + f o else acc + g o) c =
        c + (l.map (fun o => if o.is_terminal then f o else g o)).sum := by
  intro l
  induction l with
  | nil => intro c; simp
  | cons o l ih =>
    intro c
    rw [List.foldl_cons, List.map_cons, List.sum_cons, ih]
    cases h : o.is_terminal <;> simp [h] <;> ring

/-- The three textually identical expected-value accumulations compute the
spec's expected-return sum. -/
theorem expected_value_eval_eq_spec (env : MDP) (gamma : ℚ) (v : ℕ → ℚ)
    (s a : ℕ) :
    expected_value_eval env gamma v s a = expectedReturnSpec env gamma v s a := by
  rw [expected_value_eval, expectedReturnSpec, foldl_branch_add_eq_sum, zero_add]
  congr 1
  apply List.map_congr_left
  intro o _
  cases h : o.is_terminal <;> simp [h]

theorem sum_map_sub (f g : Outcome → ℚ) (l : List Outcome) :
    (l.map f).sum - (l.map g).sum = (l.map (fun o => f o - g o)).sum := by
  induction l with
  | nil => simp
  | cons o l ih => simp [List.sum_cons, ← ih]; ring

theorem abs_sum_map_le (f g : Outcome → ℚ) (l : List Outcome)
    (h : ∀ o ∈ l, |f o| ≤ g o) :
    |(l.map f).sum| ≤ (l.map g).sum := by
  induction l with
  | nil => simp
  | cons o l ih =>
    rw [List.map_cons, List.sum_cons, List.map_cons, List.sum_cons]
    refine le_trans (abs_add _ _) ?_
    have h1 := h o (List.mem_cons_self o l)
    have h2 := ih (fun x hx => h x (List.mem_cons_of_mem o hx))
    exact add_le_add h1 h2

theorem sum_map_mul_const (f : Outcome → ℚ) (c : ℚ) (l : List Outcome) :
    (l.map (fun o => f o * c)).sum = (l.map f).sum * c := by
  induction l with
  | nil => simp
  | cons o l ih => simp [List.sum_cons, ih]; ring

/-! ### Characterization of the greedy extraction -/

/-- Action index `b` is the greedy action the source selects at state `s`: it is in
range, maximizes the expected value, and is the least index attaining the
maximum. -/
def greedyAt (env : MDP) (gamma : ℚ) (value_function : ℕ → ℚ) (s b : ℕ) :
    Prop :=
  b < env.nA ∧
  (∀ a, a < env.nA →
    expected_value_vtp env gamma value_function s a ≤
      expected_value_vtp env gamma value_function s b) ∧
  (∀ a, a < env.nA →
    expected_value_vtp env gamma value_function s a =
      expected_value_vtp env gamma value_function s b → b ≤ a)

/-- The action loop of `value_function_to_policy` never writes a policy
cell other than `s`. -/
theorem vtpInnerFold_other (env : MDP) (gamma : ℚ) (value_function : ℕ → ℚ)
    (s : ℕ) :
    ∀ (l : List ℕ) (st : Option ℚ × (ℕ → ℕ)) (t : ℕ), t ≠ s →
      (l.foldl (vtpInner env gamma value_function s) st).2 t = st.2 t := by
  intro l
  induction l with
  | nil => intro st t _; rfl
  | cons a l ih =>
    intro st t ht
    rw [List.foldl_cons, ih _ _ ht]
    rcases st with ⟨mv, p⟩
    rcases mv with _ | m
    · simp [vtpInner, updAt, ht]
    · by_cases hlt : m < expected_value_vtp env gamma value_function s a
      · simp [vtpInner, hlt, updAt, ht]
      · simp [vtpInner, hlt]

/-- After scanning actions `0, …, n-1` (with `n ≥ 1`), the action loop
state holds the running maximum and has written the least maximizing
action index seen so far into the policy cell `s`. -/
theorem vtpInnerFold_greedy (env : MDP) (gamma : ℚ) (value_function : ℕ → ℚ)
    (s : ℕ) (p : ℕ → ℕ) :
    ∀ n, 1 ≤ n →
      ∃ b, b < n ∧
        ((List.range n).foldl (vtpInner env gamma value_function s)
            (none, p)).1 =
          some (expected_value_vtp env gamma value_function s b) ∧
        ((List.range n).foldl (vtpInner env gamma value_function s)
            (none, p)).2 s = b ∧
        (∀ a, a < n →
          expected_value_vtp env gamma value_function s a ≤
            expected_value_vtp env gamma value_function s b) ∧
        (∀ a, a < n →
          expected_value_vtp env gamma value_function s a =
            expected_value_vtp env gamma value_function s b → b ≤ a) := by
  intro n
  induction n with
  | zero => intro h; exact absurd h (by omega)
  | succ n ih =>
    intro _
    by_cases hn : 1 ≤ n
    · obtain ⟨b, hbn, h1, h2, h3, h4⟩ := ih hn
      have hsucc : (List.range (n + 1)).foldl
          (vtpInner env gamma value_function s) (none, p) =
          vtpInner env gamma value_function s
            ((List.range n).foldl (vtpInner env gamma value_function s)
              (none, p)) n :=
        rangeFold_succ _ _ _
      set st := (List.range n).foldl (vtpInner env gamma value_function s)
        (none, p) with hst
      by_cases hlt : expected_value_vtp env gamma value_function s b <
          expected_value_vtp env gamma value_function s n
      · refine ⟨n, by omega, ?_, ?_, ?_, ?_⟩
        · rw [hsucc, vtpInner, h1]
          simp [hlt]
        · rw [hsucc, vtpInner, h1]
          simp [hlt, updAt]
        · intro a ha
          rcases Nat.lt_succ_iff_lt_or_eq.mp ha with h | h
          · exact (lt_of_le_of_lt (h3 a h) hlt).le
          · rw [h]
        · intro a ha heq
          rcases Nat.lt_succ_iff_lt_or_eq.mp ha with h | h
          · have := lt_of_le_of_lt (h3 a h) hlt
            rw [heq] at this
            exact absurd this (lt_irrefl _)
          · omega
      · refine ⟨b, by omega, ?_, ?_, ?_, ?_⟩
        · rw [hsucc, vtpInner, h1]
          simp [hlt, h1]
        · rw [hsucc, vtpInner, h1]
          simp [hlt, h2]
        · intro a ha
          rcases Nat.lt_succ_iff_lt_or_eq.mp ha with h | h
          · exact h3 a h
          · rw [h]; exact not_lt.mp hlt
        · intro a ha heq
          rcases Nat.lt_succ_iff_lt_or_eq.mp ha with h | h
          · exact h4 a h heq
          · omega
    · have hn0 : n = 0 := by omega
      subst hn0
      have hr1 : List.range 1 = [0] := rfl
      refine ⟨0, by omega, ?_, ?_, ?_, ?_⟩
      · simp [hr1, vtpInner]
      · simp [hr1, vtpInner, updAt]
      · intro a ha
        have : a = 0 := by omega
        rw [this]
      · intro a ha _
        omega

/-- The state of the `value_function_to_policy` outer loop after processing
states `0, …, n-1`. -/
def vtpFold (env : MDP) (gamma : ℚ) (value_function : ℕ → ℚ) (n : ℕ) :
    ℕ → ℕ :=
  (List.range n).foldl (vtpOuterStep env gamma value_function) (fun _ => 0)

theorem value_function_to_policy_eq_fold (env : MDP) (gamma : ℚ)
    (value_function : ℕ → ℚ) :
    value_function_to_policy env gamma value_function =
      vtpFold env gamma value_function env.nS :=
  rfl

/-- Loop invariant for the outer loop of `value_function_to_policy`:
unprocessed cells still hold the `np.zeros` initial value, and (when there
is at least one action) every processed cell holds the least maximizing
action. -/
theorem vtpFold_invariant (env : MDP) (gamma : ℚ) (value_function : ℕ → ℚ)
    (n : ℕ) :
    (∀ t, n ≤ t → vtpFold env gamma value_function n t = 0) ∧
    (1 ≤ env.nA → ∀ s, s < n →
      greedyAt env gamma value_function s
        (vtpFold env gamma value_function n s)) := by
  induction n with
  | zero => exact ⟨fun t _ => rfl, fun _ s hs => absurd hs (Nat.not_lt_zero s)⟩
  | succ n ih =>
    obtain ⟨ha, hb⟩ := ih
    have hsucc : vtpFold env gamma value_function (n + 1) =
        vtpOuterStep env gamma value_function
          (vtpFold env gamma value_function n) n :=
      rangeFold_succ _ _ _
    refine ⟨?_, ?_⟩
    · intro t ht
      rw [hsucc, vtpOuterStep,
        vtpInnerFold_other env gamma value_function n _ _ t (by omega)]
      exact ha t (by omega)
    · intro hA s hs
      rcases Nat.lt_succ_iff_lt_or_eq.mp hs with hlt | heq
      · have hcell : vtpFold env gamma value_function (n + 1) s =
            vtpFold env gamma value_function n s := by
          rw [hsucc, vtpOuterStep,
            vtpInnerFold_other env gamma value_function n _ _ s (by omega)]
        rw [hcell]
        exact hb hA s hlt
      · obtain ⟨b, hbA, _, h2, h3, h4⟩ :=
          vtpInnerFold_greedy env gamma value_function n
            (vtpFold env gamma value_function n) env.nA hA
        have hcell : vtpFold env gamma value_function (n + 1) s = b := by
          rw [hsucc, vtpOuterStep, heq]
          exact h2
        rw [hcell, heq]
        exact ⟨hbA, h3, h4⟩

/-! ### The stability flag of `improve_policy` -/

theorem stable_foldl_eq_all (oldp newp : ℕ → ℕ) :
    ∀ (l : List ℕ) (b : Bool),
      l.foldl (fun policy_stable s =>
          if oldp s ≠ newp s then false else policy_stable) b =
        (b && l.all (fun s => oldp s == newp s)) := by
  intro l
  induction l with
  | nil => intro b; simp
  | cons x l ih =>
    intro b
    rw [List.foldl_cons, ih, List.all_cons]
    by_cases h : oldp x = newp x
    · simp [h]
    · simp [h]

/-- The first component of `improve_policy` is `true` exactly when the old
policy agrees with the freshly extracted greedy policy on every state. -/
theorem improve_policy_fst_iff (env : MDP) (gamma : ℚ) (value_func : ℕ → ℚ)
    (policy : ℕ → ℕ) :
    (improve_policy env gamma value_func policy).1 = true ↔
      ∀ s, s < env.nS →
        policy s = value_function_to_policy env gamma value_func s := by
  rw [improve_policy]
  simp only [stable_foldl_eq_all, Bool.true_and, List.all_eq_true,
    List.mem_range, beq_iff_eq]

/-! ### Characterization of the `policy_iteration` loop -/

theorem policy_iteration_go_succ (env : MDP) (gamma : ℚ)
    (max_iterations : ℕ) (tol : ℚ) (fuel n : ℕ) (pol : ℕ → ℕ) (v : ℕ → ℚ)
    (imp ev : ℕ) :
    policy_iteration_go env gamma max_iterations tol fuel (n + 1)
        (pol, v, imp, ev) =
      match evaluate_policy env gamma pol v max_iterations tol fuel with
      | none => none
      | some (v', e) =>
        if (improve_policy env gamma v' pol).1 then
          some ((improve_policy env gamma v' pol).2, v', imp + 1, ev + e)
        else
          policy_iteration_go env gamma max_iterations tol fuel n
            ((improve_policy env gamma v' pol).2, v', imp + 1, ev + e) :=
  rfl

/-- Unfolding one round of the state machine. -/
theorem piTrace_succ (env : MDP) (gamma : ℚ) (max_iterations : ℕ) (tol : ℚ)
    (fuel k : ℕ) :
    piTrace env gamma max_iterations tol fuel (k + 1) =
      match piTrace env gamma max_iterations tol fuel k with
      | none => none
      | some (st, acc) =>
        match piRound env gamma max_iterations tol fuel st with
        | none => none
        | some (_, st', e_iter) => some (st', acc + e_iter) :=
  rfl

/-- The loop of `policy_iteration` follows the round-by-round state machine
`piTrace`: starting after `j` recorded rounds with `j + n = max_iterations`
rounds of budget left, a `some` result lands on the state machine's
trajectory, bounds its round count by the budget, and reports `false`
stability flags for every round except (possibly) the last, which is `true`
whenever the loop exited early. -/
theorem policy_iteration_go_spec (env : MDP) (gamma : ℚ)
    (max_iterations : ℕ) (tol : ℚ) (fuel : ℕ) :
    ∀ n j (pol : ℕ → ℕ) (v : ℕ → ℚ) acc0,
      j + n = max_iterations →
      piTrace env gamma max_iterations tol fuel j = some ((pol, v), acc0) →
      ∀ p vf imp ev,
        policy_iteration_go env gamma max_iterations tol fuel n
          (pol, v, j, acc0) = some (p, vf, imp, ev) →
        imp ≤ max_iterations ∧
        piTrace env gamma max_iterations tol fuel imp = some ((p, vf), ev) ∧
        (∀ i, j ≤ i → i + 1 < imp →
          piStableAt env gamma max_iterations tol fuel i = some false) ∧
        (imp < max_iterations → 1 ≤ imp ∧
          piStableAt env gamma max_iterations tol fuel (imp - 1) = some true) := by
  intro n
  induction n with
  | zero =>
    intro j pol v acc0 hj htrace p vf imp ev h
    rw [policy_iteration_go] at h
    injection h with h
    injection h with h1 h
    injection h with h2 h
    injection h with h3 h4
    subst h1
    subst h2
    subst h3
    subst h4
    refine ⟨by omega, htrace, ?_, ?_⟩
    · intro i hi hii
      omega
    · intro hlt
      omega
  | succ n ih =>
    intro j pol v acc0 hj htrace p vf imp ev h
    rw [policy_iteration_go_succ] at h
    rcases heval : evaluate_policy env gamma pol v max_iterations tol fuel with
      _ | ⟨v', e⟩
    · rw [heval] at h
      exact absurd h (by simp)
    · rw [heval] at h
      dsimp only at h
      have hround : piRound env gamma max_iterations tol fuel (pol, v) =
          some ((improve_policy env gamma v' pol).1,
            ((improve_policy env gamma v' pol).2, v'), e) := by
        rw [piRound, heval]
      have htrace1 : piTrace env gamma max_iterations tol fuel (j + 1) =
          some (((improve_policy env gamma v' pol).2, v'), acc0 + e) := by
        rw [piTrace_succ, htrace]
        simp [hround]
      have hflag : piStableAt env gamma max_iterations tol fuel j =
          some (improve_policy env gamma v' pol).1 := by
        rw [piStableAt, htrace]
        simp [hround]
      by_cases hstable : (improve_policy env gamma v' pol).1 = true
      · rw [if_pos hstable] at h
        injection h with h
        injection h with h1 h
        injection h with h2 h
        injection h with h3 h4
        refine ⟨by omega, ?_, ?_, ?_⟩
        · rw [← h3, ← h4, ← h1, ← h2]
          exact htrace1
        · intro i hi hii
          omega
        · intro _
          refine ⟨by omega, ?_⟩
          have himp : imp - 1 = j := by omega
          rw [himp, hflag, hstable]
      · rw [if_neg hstable] at h
        obtain ⟨c1, c2, c3, c4⟩ := ih (j + 1)
          (improve_policy env gamma v' pol).2 v' (acc0 + e)
          (by omega) htrace1 p vf imp ev h
        refine ⟨c1, c2, ?_, c4⟩
        intro i hi hii
        rcases Nat.eq_or_lt_of_le hi with heq | hgt
        · rw [← heq, hflag]
          rw [Bool.not_eq_true] at hstable
          rw [hstable]
        · exact c3 i (by omega) hii

/-- When there is at least one action, every cell of the extracted policy
is a valid action index. -/
theorem value_function_to_policy_range (env : MDP) (gamma : ℚ)
    (value_function : ℕ → ℚ) (hA : 1 ≤ env.nA) :
    ∀ s, value_function_to_policy env gamma value_function s < env.nA := by
  intro s
  by_cases hs : s < env.nS
  · have h := (vtpFold_invariant env gamma value_function env.nS).2 hA s hs
    rw [value_function_to_policy_eq_fold]
    exact h.1
  · have h := (vtpFold_invariant env gamma value_function env.nS).1 s (by omega)
    rw [value_function_to_policy_eq_fold, h]
    omega

/-- The policy carried by the `policy_iteration` loop stays within the
action range. -/
theorem policy_iteration_go_range (env : MDP) (gamma : ℚ)
    (max_iterations : ℕ) (tol : ℚ) (fuel : ℕ) (hA : 1 ≤ env.nA) :
    ∀ n (pol : ℕ → ℕ) (v : ℕ → ℚ) imp ev r,
      (∀ s, pol s < env.nA) →
      policy_iteration_go env gamma max_iterations tol fuel n
        (pol, v, imp, ev) = some r →
      ∀ s, r.1 s < env.nA := by
  intro n
  induction n with
  | zero =>
    intro pol v imp ev r hpol h
    rw [policy_iteration_go] at h
    injection h with h
    rw [← h]
    exact hpol
  | succ n ih =>
    intro pol v imp ev r hpol h
    rw [policy_iteration_go_succ] at h
    rcases heval : evaluate_policy env gamma pol v max_iterations tol fuel with
      _ | ⟨v', e⟩
    · rw [heval] at h
      exact absurd h (by simp)
    · rw [heval] at h
      dsimp only at h
      by_cases hstable : (improve_policy env gamma v' pol).1 = true
      · rw [if_pos hstable] at h
        injection h with h
        rw [← h]
        exact value_function_to_policy_range env gamma v' hA
      · rw [if_neg hstable] at h
        exact ih (improve_policy env gamma v' pol).2 v' (imp + 1) (ev + e) r
          (value_function_to_policy_range env gamma v' hA) h

/-! ### Claim theorems -/

/-- C5: in all three call sites (`evaluate_policy`,
`value_function_to_policy`, `value_iteration`) the expected-return
computation gives a terminal outcome the contribution `prob * reward`
(its continuation term is zeroed) and a non-terminal outcome the
contribution `prob * (reward + γ·V(next))`. -/
theorem expected_return_terminal_zeroing (env : MDP) (gamma : ℚ)
    (v : ℕ → ℚ) (s a : ℕ) :
    expected_value_eval env gamma v s a = expectedReturnSpec env gamma v s a ∧
    expected_value_vtp env gamma v s a = expectedReturnSpec env gamma v s a ∧
    expected_value_vi env gamma v s a = expectedReturnSpec env gamma v s a := by
  refine ⟨expected_value_eval_eq_spec env gamma v s a, ?_, ?_⟩
  · rw [expected_value_vtp, expectedReturnSpec, foldl_branch_add_eq_sum,
      zero_add]
    congr 1
    apply List.map_congr_left
    intro o _
    cases h : o.is_terminal <;> simp [h]
  · rw [expected_value_vi, expectedReturnSpec, foldl_branch_add_eq_sum,
      zero_add]
    congr 1
    apply List.map_congr_left
    intro o _
    cases h : o.is_terminal <;> simp [h]

/-- C4: `value_function_to_policy` assigns to each state an action
maximizing the expected return, and among maximizers the smallest action
index (replacement happens only under strict `<`). -/
theorem value_function_to_policy_greedy (env : MDP) (gamma : ℚ)
    (value_function : ℕ → ℚ) (s : ℕ) (hs : s < env.nS) (hA : 1 ≤ env.nA) :
    value_function_to_policy env gamma value_function s < env.nA ∧
    (∀ a, a < env.nA →
      expected_value_vtp env gamma value_function s a ≤
        expected_value_vtp env gamma value_function s
          (value_function_to_policy env gamma value_function s)) ∧
    (∀ a, a < env.nA →
      expected_value_vtp env gamma value_function s a =
        expected_value_vtp env gamma value_function s
          (value_function_to_policy env gamma value_function s) →
      value_function_to_policy env gamma value_function s ≤ a) := by
  have h := (vtpFold_invariant env gamma value_function env.nS).2 hA s hs
  rw [value_function_to_policy_eq_fold]
  exact ⟨h.1, h.2.1, h.2.2⟩

theorem value_function_to_policy_greedy_witness :
    0 < modelB.nS ∧ 1 ≤ modelB.nA ∧
    (value_function_to_policy modelB (mkRat 1 2) zeroValue 0 < modelB.nA ∧
    (∀ a, a < modelB.nA →
      expected_value_vtp modelB (mkRat 1 2) zeroValue 0 a ≤
        expected_value_vtp modelB (mkRat 1 2) zeroValue 0
          (value_function_to_policy modelB (mkRat 1 2) zeroValue 0)) ∧
    (∀ a, a < modelB.nA →
      expected_value_vtp modelB (mkRat 1 2) zeroValue 0 a =
        expected_value_vtp modelB (mkRat 1 2) zeroValue 0
          (value_function_to_policy modelB (mkRat 1 2) zeroValue 0) →
      value_function_to_policy modelB (mkRat 1 2) zeroValue 0 ≤ a)) :=
  ⟨by decide, by decide,
    value_function_to_policy_greedy modelB (mkRat 1 2) zeroValue 0 (by decide)
      (by decide)⟩

/-- C9: with at least one action available, every state is assigned an
in-range action by `value_function_to_policy`, hence also by
`improve_policy` and by the policy returned from `policy_iteration`. -/
theorem policy_in_range (env : MDP) (gamma : ℚ) (value_function : ℕ → ℚ)
    (policy : ℕ → ℕ) (max_iterations : ℕ) (tol : ℚ) (fuel : ℕ)
    (r : (ℕ → ℕ) × (ℕ → ℚ) × ℕ × ℕ) (hA : 1 ≤ env.nA) :
    (∀ s, value_function_to_policy env gamma value_function s < env.nA) ∧
    (∀ s, (improve_policy env gamma value_function policy).2 s < env.nA) ∧
    (policy_iteration env gamma max_iterations tol fuel = some r →
      ∀ s, r.1 s < env.nA) := by
  refine ⟨value_function_to_policy_range env gamma value_function hA,
    value_function_to_policy_range env gamma value_function hA, ?_⟩
  intro h
  rw [policy_iteration] at h
  exact policy_iteration_go_range env gamma max_iterations tol fuel hA
    max_iterations (fun _ => 0) (fun _ => 0) 0 0 r (fun _ => hA) h

theorem policy_in_range_witness :
    1 ≤ modelB.nA ∧
    ((∀ s, value_function_to_policy modelB (mkRat 1 2) zeroValue s < modelB.nA) ∧
    (∀ s, (improve_policy modelB (mkRat 1 2) zeroValue zeroPolicy).2 s < modelB.nA) ∧
    (policy_iteration modelB (mkRat 1 2) 10 (mkRat 1 1000) 10 =
        some (zeroPolicy, zeroValue, 0, 0) →
      ∀ s, zeroPolicy s < modelB.nA)) :=
  ⟨by decide,
    policy_in_range modelB (mkRat 1 2) zeroValue zeroPolicy 10 (mkRat 1 1000) 10
      (zeroPolicy, zeroValue, 0, 0) (by decide)⟩

/-- C1 (code bug): the `while` loop of `evaluate_policy` never consults
`max_iterations` — the result is identical for every cap, and on the
two-state Scenario-A model with cap 1 the function still performs (and
reports) 2 sweeps. -/
theorem evaluate_policy_ignores_cap :
    (∀ (env : MDP) (gamma : ℚ) (policy : ℕ → ℕ) (value_func : ℕ → ℚ)
      (tol : ℚ) (fuel m₁ m₂ : ℕ),
      evaluate_policy env gamma policy value_func m₁ tol fuel =
        evaluate_policy env gamma policy value_func m₂ tol fuel) ∧
    (evaluate_policy modelA (mkRat 1 2) zeroPolicy zeroValue 1 (mkRat 1 1000) 5).map
      (fun r => r.2) = some 2 :=
  ⟨fun _ _ _ _ _ _ _ _ => rfl, by with_unfolding_all decide⟩

/-- C2 counterexample: on the one-state two-action model with the zero
value function, the freshly extracted greedy policy differs from the old
policy at state 0, yet the first return value of `improve_policy` is
`false` (the source returns the `policy_stable` flag, despite its
docstring saying "Returns true if policy changed"). -/
theorem improve_policy_changed_flag_cex :
    value_function_to_policy modelB (mkRat 1 2) zeroValue 0 ≠ zeroPolicy 0 ∧
    0 < modelB.nS ∧
    (improve_policy modelB (mkRat 1 2) zeroValue zeroPolicy).1 = false := by
  with_unfolding_all decide

/-- C2 (amended): the boolean returned first by `improve_policy` is `true`
iff the newly extracted greedy policy agrees with the old policy at every
state (it is a stability flag, the negation of "changed"); the second
return value is the new greedy policy. -/
theorem improve_policy_flag_spec (env : MDP) (gamma : ℚ)
    (value_func : ℕ → ℚ) (policy : ℕ → ℕ) :
    ((improve_policy env gamma value_func policy).1 = true ↔
      ∀ s, s < env.nS →
        policy s = value_function_to_policy env gamma value_func s) ∧
    (improve_policy env gamma value_func policy).2 =
      value_function_to_policy env gamma value_func :=
  ⟨improve_policy_fst_iff env gamma value_func policy, rfl⟩

/-- C10: with `max_iterations = 0` the sweep loop of `value_iteration`
never executes and the function returns the all-zero value function and an
iteration count of 0 (the final `V[nS-1] = 0` write keeps the array
all-zero). -/
theorem value_iteration_zero_iterations (env : MDP) (gamma tol : ℚ)
    (hS : 1 ≤ env.nS) :
    value_iteration env gamma 0 tol = some ((fun _ => 0), 0) := by
  have h0 : viLoop env gamma tol 0 (fun _ => 0) 0 =
      some ((fun _ => 0), 0) := rfl
  have hz : updAt (fun _ => (0 : ℚ)) (env.nS - 1) 0 = (fun _ => 0) := by
    funext t
    rw [updAt]
    split <;> rfl
  have hns : ¬ env.nS = 0 := by omega
  rw [value_iteration, h0]
  simp only [hns, if_false, hz]

theorem value_iteration_zero_iterations_witness :
    1 ≤ modelB.nS ∧
    value_iteration modelB (mkRat 9 10) 0 (mkRat 1 1000) = some ((fun _ => 0), 0) :=
  ⟨by decide, value_iteration_zero_iterations modelB (mkRat 9 10) (mkRat 1 1000)
    (by decide)⟩

/-- C3: whatever `value_iteration` returns has a zero entry at the last
state index `nS - 1` (the hard-coded override after the loop), and on the
single-state Scenario-B model the loop itself converges to `V[0] = 2` in
2 sweeps while the returned array has `V[0] = 0` because state 0 is also
the last state. -/
theorem value_iteration_last_state_zero :
    (∀ (env : MDP) (gamma : ℚ) (max_iterations : ℕ) (tol : ℚ)
      (V : ℕ → ℚ) (c : ℕ),
      value_iteration env gamma max_iterations tol = some (V, c) →
      V (env.nS - 1) = 0) ∧
    (value_iteration modelB (mkRat 9 10) 10 (mkRat 1 1000)).map
      (fun r => (r.1 0, r.2)) = some (0, 2) ∧
    (viLoop modelB (mkRat 9 10) (mkRat 1 1000) 10 (fun _ => 0) 0).map
      (fun r => (r.1 0, r.2)) = some (2, 2) := by
  refine ⟨?_, by with_unfolding_all decide, by with_unfolding_all decide⟩
  intro env gamma max_iterations tol V c h
  rw [value_iteration] at h
  rcases hloop : viLoop env gamma tol max_iterations (fun _ => 0) 0 with
    _ | ⟨V0, c0⟩
  · rw [hloop] at h
    exact absurd h (by simp)
  · rw [hloop] at h
    dsimp only at h
    by_cases hns : env.nS = 0
    · rw [if_pos hns] at h
      exact absurd h (by simp)
    · rw [if_neg hns] at h
      injection h with h
      injection h with h1 h2
      rw [← h1, updAt]
      simp

theorem value_iteration_last_state_zero_witness :
    (value_iteration modelB (mkRat 9 10) 10 (mkRat 1 1000)).map
      (fun r => r.1 (modelB.nS - 1)) = some 0 := by
  have hsome : (value_iteration modelB (mkRat 9 10) 10 (mkRat 1 1000)).isSome =
      true := by
    with_unfolding_all decide
  rcases h : value_iteration modelB (mkRat 9 10) 10 (mkRat 1 1000) with _ | ⟨V, c⟩
  · rw [h] at hsome
    simp at hsome
  · show some (V (modelB.nS - 1)) = some 0
    exact congrArg some
      (value_iteration_last_state_zero.1 modelB (mkRat 9 10) 10 (mkRat 1 1000) V c h)

/-- Specialized sum lemma: factoring a constant out of a probability sum. -/
theorem sum_map_prob_mul (c : ℚ) (l : List Outcome) :
    (l.map (fun o => o.prob * c)).sum = (l.map (fun o => o.prob)).sum * c := by
  induction l with
  | nil => simp
  | cons o l ih =>
    simp [List.sum_cons, ih]
    ring

/-- C6 (amended): for a converged value function returned by
`evaluate_policy`, every state whose outcomes under the policy's action are
all non-terminal satisfies the Bellman equation for the policy to within
the tolerance — provided the discount is nonnegative, the outcome
probabilities of that (state, action) pair are nonnegative, and the
discount times their sum is at most 1 (true in particular for γ ∈ [0,1)
and probabilities summing to at most 1). -/
theorem evaluate_policy_fixed_point (env : MDP) (gamma : ℚ)
    (policy : ℕ → ℕ) (value_func : ℕ → ℚ) (max_iterations : ℕ) (tol : ℚ)
    (fuel : ℕ) (V : ℕ → ℚ) (iters : ℕ) (s : ℕ)
    (h : evaluate_policy env gamma policy value_func max_iterations tol fuel =
      some (V, iters))
    (hs : s < env.nS)
    (hterm : ∀ o ∈ env.P s (policy s), o.is_terminal = false)
    (hprob : ∀ o ∈ env.P s (policy s), 0 ≤ o.prob)
    (hgamma : 0 ≤ gamma)
    (hsum : gamma * ((env.P s (policy s)).map (fun o => o.prob)).sum ≤ 1) :
    |V s - ((env.P s (policy s)).map
      (fun o => o.prob * (o.reward + gamma * V o.nextState))).sum| < tol := by
  rw [evaluate_policy] at h
  obtain ⟨u, hV, hdelta⟩ :=
    evaluatePolicyLoop_last_sweep env gamma policy tol fuel value_func 0 V
      iters h
  have hinv := evalSweepFold_invariant env gamma policy u env.nS
  have hchar := hinv.2.1 s hs
  have hbound := hinv.2.2.1
  have hD0 := hinv.2.2.2
  rw [← evalSweep_eq_fold] at hchar hbound hD0
  rw [hV] at hchar hbound
  have hVs : V s = ((env.P s (policy s)).map
      (fun o => o.prob * (o.reward + gamma *
        (if o.nextState < s then V o.nextState else u o.nextState)))).sum := by
    rw [hchar, expected_value_eval_eq_spec, expectedReturnSpec]
    congr 1
    apply List.map_congr_left
    intro o ho
    rw [hterm o ho]
    simp
  have hsub := sum_map_sub
    (fun o => o.prob * (o.reward + gamma *
      (if o.nextState < s then V o.nextState else u o.nextState)))
    (fun o => o.prob * (o.reward + gamma * V o.nextState))
    (env.P s (policy s))
  have hstep : ∀ o ∈ env.P s (policy s),
      |o.prob * (o.reward + gamma *
        (if o.nextState < s then V o.nextState else u o.nextState)) -
        o.prob * (o.reward + gamma * V o.nextState)| ≤
      o.prob * (gamma * (evalSweep env gamma policy u).2) := by
    intro o ho
    have hfg : o.prob * (o.reward + gamma *
        (if o.nextState < s then V o.nextState else u o.nextState)) -
        o.prob * (o.reward + gamma * V o.nextState) =
        o.prob * (gamma * ((if o.nextState < s then V o.nextState
          else u o.nextState) - V o.nextState)) := by
      ring
    rw [hfg, abs_mul, abs_mul, abs_of_nonneg (hprob o ho),
      abs_of_nonneg hgamma]
    refine mul_le_mul_of_nonneg_left ?_ (hprob o ho)
    refine mul_le_mul_of_nonneg_left ?_ hgamma
    by_cases hn : o.nextState < s
    · rw [if_pos hn, sub_self, abs_zero]
      exact hD0
    · rw [if_neg hn, abs_sub_comm]
      exact hbound o.nextState
  rw [hVs, hsub]
  refine lt_of_le_of_lt ?_ hdelta
  refine le_trans (abs_sum_map_le _
    (fun o => o.prob * (gamma * (evalSweep env gamma policy u).2)) _ hstep) ?_
  rw [sum_map_prob_mul]
  have hfactor : ((env.P s (policy s)).map (fun o => o.prob)).sum *
      (gamma * (evalSweep env gamma policy u).2) =
      (gamma * ((env.P s (policy s)).map (fun o => o.prob)).sum) *
        (evalSweep env gamma policy u).2 := by
    ring
  rw [hfactor]
  calc (gamma * ((env.P s (policy s)).map (fun o => o.prob)).sum) *
      (evalSweep env gamma policy u).2
      ≤ 1 * (evalSweep env gamma policy u).2 :=
        mul_le_mul_of_nonneg_right hsum hD0
    _ = (evalSweep env gamma policy u).2 := one_mul _

/-- C6 counterexample: on a model whose outcome probabilities at state 0
sum to 2 (allowed by the spec's data model), `evaluate_policy` converges in
one sweep with tolerance 1, state 0's outcomes are all non-terminal, yet
the Bellman residual of the returned value function at state 0 is
27/25 ≥ 1: the claim fails as stated for arbitrary models. -/
theorem evaluate_policy_fixed_point_cex :
    (modelFan.P 0 (zeroPolicy 0)).all (fun o => !o.is_terminal) = true ∧
    (evaluate_policy modelFan (mkRat 9 10) zeroPolicy zeroValue 1000 1 5).map
      (fun r => |r.1 0 - ((modelFan.P 0 (zeroPolicy 0)).map
        (fun o => o.prob * (o.reward + (mkRat 9 10) * r.1 o.nextState))).sum|)
      = some (mkRat 27 25) ∧
    ¬ ((mkRat 27 25 : ℚ) < 1) := by
  with_unfolding_all decide

theorem evaluate_policy_fixed_point_witness :
    (evaluate_policy modelA (mkRat 1 2) zeroPolicy zeroValue 10
        (mkRat 1 1000) 5).elim False
      (fun r => |r.1 0 - ((modelA.P 0 (zeroPolicy 0)).map
        (fun o => o.prob * (o.reward + (mkRat 1 2) * r.1 o.nextState))).sum| <
          mkRat 1 1000) := by
  have hsome : (evaluate_policy modelA (mkRat 1 2) zeroPolicy zeroValue 10
      (mkRat 1 1000) 5).isSome = true := by
    with_unfolding_all decide
  rcases h : evaluate_policy modelA (mkRat 1 2) zeroPolicy zeroValue 10
      (mkRat 1 1000) 5 with _ | ⟨V, iters⟩
  · rw [h] at hsome
    simp at hsome
  · show |V 0 - ((modelA.P 0 (zeroPolicy 0)).map
      (fun o => o.prob * (o.reward + (mkRat 1 2) * V o.nextState))).sum| <
        mkRat 1 1000
    exact evaluate_policy_fixed_point modelA (mkRat 1 2) zeroPolicy zeroValue
      10 (mkRat 1 1000) 5 V iters 0 h (by decide)
      (by with_unfolding_all decide) (by with_unfolding_all decide)
      (by with_unfolding_all decide) (by with_unfolding_all decide)

/-- C7: within one sweep (of `evaluate_policy` and of `value_iteration`)
states are updated in increasing index order and each write is immediately
visible: the value produced for state `s` is computed from the array that
already holds this sweep's results below `s` and the start-of-sweep values
at `s` and above (Gauss–Seidel, not Jacobi). -/
theorem sweep_gauss_seidel (env : MDP) (gamma : ℚ) (policy : ℕ → ℕ)
    (v0 : ℕ → ℚ) (s : ℕ) (hs : s < env.nS) :
    (evalSweep env gamma policy v0).1 s =
      expected_value_eval env gamma
        (fun t => if t < s then (evalSweep env gamma policy v0).1 t else v0 t)
        s (policy s) ∧
    (viSweep env gamma v0).elim True
      (fun r => viBest env gamma
        (fun t => if t < s then r.1 t else v0 t) s = some (r.1 s)) := by
  constructor
  · have h := (evalSweepFold_invariant env gamma policy v0 env.nS).2.1 s hs
    rw [← evalSweep_eq_fold] at h
    exact h
  · rcases hvi : viSweep env gamma v0 with _ | ⟨V, delta⟩
    · exact trivial
    · rw [viSweep_eq_fold] at hvi
      rcases viSweepFold_invariant env gamma v0 env.nS with hnone |
        ⟨W, d, hsome, _, hb⟩
      · rw [hvi] at hnone
        exact absurd hnone (by simp)
      · rw [hvi] at hsome
        injection hsome with hsome
        injection hsome with hW hd
        show viBest env gamma (fun t => if t < s then V t else v0 t) s =
          some (V s)
        rw [← hW] at hb
        exact hb s hs

theorem sweep_gauss_seidel_witness :
    1 < modelA.nS ∧
    ((evalSweep modelA (mkRat 1 2) zeroPolicy zeroValue).1 1 =
      expected_value_eval modelA (mkRat 1 2)
        (fun t => if t < 1 then (evalSweep modelA (mkRat 1 2) zeroPolicy
          zeroValue).1 t else zeroValue t) 1 (zeroPolicy 1) ∧
    (viSweep modelA (mkRat 1 2) zeroValue).elim True
      (fun r => viBest modelA (mkRat 1 2)
        (fun t => if t < 1 then r.1 t else zeroValue t) 1 = some (r.1 1))) :=
  ⟨by decide,
    sweep_gauss_seidel modelA (mkRat 1 2) zeroPolicy zeroValue 1 (by decide)⟩

/-- C8: `policy_iteration` starts from the all-zero policy and value
function, follows the evaluate-improve state machine `piTrace`, executes at
most `max_iterations` rounds, counts one improvement iteration per
executed round (including the stabilizing round) and sums the evaluation
sweep counts; every round before the last reported a changed (unstable)
policy, and if the loop ended before exhausting the budget, the final
round reported stability. -/
theorem policy_iteration_follows_trace (env : MDP) (gamma : ℚ)
    (max_iterations : ℕ) (tol : ℚ) (fuel : ℕ) (p : ℕ → ℕ) (vf : ℕ → ℚ)
    (imp ev : ℕ)
    (h : policy_iteration env gamma max_iterations tol fuel =
      some (p, vf, imp, ev)) :
    piTrace env gamma max_iterations tol fuel 0 =
      some (((fun _ => 0), fun _ => 0), 0) ∧
    imp ≤ max_iterations ∧
    piTrace env gamma max_iterations tol fuel imp = some ((p, vf), ev) ∧
    (List.range (imp - 1)).all
      (fun j => piStableAt env gamma max_iterations tol fuel j ==
        some false) = true ∧
    (imp < max_iterations → 1 ≤ imp ∧
      piStableAt env gamma max_iterations tol fuel (imp - 1) = some true) := by
  rw [policy_iteration] at h
  obtain ⟨c1, c2, c3, c4⟩ := policy_iteration_go_spec env gamma
    max_iterations tol fuel max_iterations 0 (fun _ => 0) (fun _ => 0) 0
    (by omega) rfl p vf imp ev h
  refine ⟨rfl, c1, c2, ?_, c4⟩
  rw [List.all_eq_true]
  intro j hj
  rw [List.mem_range] at hj
  rw [c3 j (by omega) (by omega)]
  rfl

theorem policy_iteration_follows_trace_witness :
    (policy_iteration modelB (mkRat 9 10) 10 (mkRat 1 1000) 10).elim False
      (fun r => r.2.2.1 ≤ 10 ∧
        piTrace modelB (mkRat 9 10) 10 (mkRat 1 1000) 10 0 =
          some (((fun _ => 0), fun _ => 0), 0) ∧
        (List.range (r.2.2.1 - 1)).all
          (fun j => piStableAt modelB (mkRat 9 10) 10 (mkRat 1 1000) 10 j ==
            some false) = true ∧
        (r.2.2.1 < 10 → 1 ≤ r.2.2.1 ∧
          piStableAt modelB (mkRat 9 10) 10 (mkRat 1 1000) 10 (r.2.2.1 - 1) =
            some true)) := by
  have hsome : (policy_iteration modelB (mkRat 9 10) 10 (mkRat 1 1000)
      10).isSome = true := by
    with_unfolding_all decide
  rcases h : policy_iteration modelB (mkRat 9 10) 10 (mkRat 1 1000) 10 with
    _ | ⟨p, vf, imp, ev⟩
  · rw [h] at hsome
    simp at hsome
  · obtain ⟨d1, d2, _, d4, d5⟩ := policy_iteration_follows_trace modelB
      (mkRat 9 10) 10 (mkRat 1 1000) 10 p vf imp ev h
    exact ⟨d2, d1, d4, d5⟩
